import Mathlib

/-!
Verification of the portability/transport layer in `src/platform.ts`.

The file shallowly embeds the polyfill (non-Node) implementations selected by
the environment capability selector:
  * `BufferImpl` (byte buffer with utf8/base64 codecs) — §4.2 of the spec,
  * `EventEmitterImpl` (reentrancy-safe dispatcher) — §4.3,
  * `makeWaitForNextTask` (deferred-task scheduler) — §4.4,
  * `WebSocketTransport` (connection state machine) — §4.5,
  * `urlMatches` (URL match predicate) — §4.6.

JavaScript strings are modelled as `List Nat` (for base64 material these are
UTF-16 code-unit values, all ASCII in practice; for the utf8 codec they are
Unicode scalar values, i.e. well-formed Unicode text as in the spec's
round-trip law).  Bytes are `Nat` values `< 256`.  Host web-platform
primitives used by the source (`atob`, `btoa`, `TextEncoder`, `TextDecoder`,
`Uint16Array`) are modelled from their platform specifications below; the
repository code itself is translated directly.
-/

namespace Platform

/-! ## Base64 (`atob` / `btoa` host primitives used by `BufferImpl`)

`btoa` maps a string of char codes ≤ 255 to its base64 encoding and throws
`InvalidCharacterError` on a char code > 255.  `atob` performs the inverse
(forgiving-base64 decode).  The model covers canonical inputs: ASCII-whitespace
stripping is not modelled, and an input whose length is ≡ 1 (mod 4) after
padding removal fails, as in the platform algorithm. -/

/-- Base64 alphabet: sextet value (< 64) to character code. -/
def b64enc (s : Nat) : Nat :=
  if s < 26 then 65 + s          -- A-Z
  else if s < 52 then 71 + s     -- a-z
  else if s < 62 then s - 4      -- 0-9
  else if s = 62 then 43         -- +
  else 47                        -- /

/-- Base64 alphabet: character code back to sextet value; `none` for a
character outside the alphabet (`=`, code 61, is not in the alphabet). -/
def b64dec (c : Nat) : Option Nat :=
  if 65 ≤ c ∧ c < 91 then some (c - 65)
  else if 97 ≤ c ∧ c < 123 then some (c - 71)
  else if 48 ≤ c ∧ c < 58 then some (c + 4)
  else if c = 43 then some 62
  else if c = 47 then some 63
  else none

/-- Body of `btoa`: encode byte chunks of three into four base64 characters,
padding the final partial chunk with `=` (code 61). -/
def btoaChunks : List Nat → List Nat
  | [] => []
  | [a] => [b64enc (a / 4), b64enc (a % 4 * 16), 61, 61]
  | [a, b] => [b64enc (a / 4), b64enc (a % 4 * 16 + b / 16), b64enc (b % 16 * 4), 61]
  | a :: b :: c :: rest =>
      b64enc (a / 4) :: b64enc (a % 4 * 16 + b / 16) ::
      b64enc (b % 16 * 4 + c / 64) :: b64enc (c % 64) :: btoaChunks rest

/-- `btoa`: fails (InvalidCharacterError) if any char code exceeds 255. -/
def btoa (l : List Nat) : Option (List Nat) :=
  if l.all (fun c => c < 256) then some (btoaChunks l) else none

/-- `atob` (forgiving-base64 decode): four characters yield three bytes; a
final chunk of two or three characters — optionally completed by `=`
padding — yields one or two bytes, excess bits discarded.  `=` anywhere
except the end of the input fails. -/
def atob : List Nat → Option (List Nat)
  | [] => some []
  | [_] => none
  | [c0, c1] =>
      match b64dec c0, b64dec c1 with
      | some s0, some s1 => some [s0 * 4 + s1 / 16]
      | _, _ => none
  | [c0, c1, c2] =>
      match b64dec c0, b64dec c1, b64dec c2 with
      | some s0, some s1, some s2 => some [s0 * 4 + s1 / 16, s1 % 16 * 16 + s2 / 4]
      | _, _, _ => none
  | c0 :: c1 :: c2 :: c3 :: rest =>
      match b64dec c0, b64dec c1 with
      | some s0, some s1 =>
        if c2 = 61 then
          if c3 = 61 ∧ rest = [] then some [s0 * 4 + s1 / 16] else none
        else
          match b64dec c2 with
          | some s2 =>
            if c3 = 61 then
              if rest = [] then some [s0 * 4 + s1 / 16, s1 % 16 * 16 + s2 / 4] else none
            else
              match b64dec c3, atob rest with
              | some s3, some bs =>
                  some ((s0 * 4 + s1 / 16) :: (s1 % 16 * 16 + s2 / 4) :: (s2 % 4 * 64 + s3) :: bs)
              | _, _ => none
          | none => none
      | _, _ => none

theorem b64dec_b64enc : ∀ s, s < 64 → b64dec (b64enc s) = some s := by decide

theorem b64enc_ne_61 : ∀ s, s < 64 → b64enc s ≠ 61 := by decide

/-- Round trip: decoding a `btoa` encoding of bytes recovers the bytes. -/
theorem atob_btoaChunks : ∀ l : List Nat, (∀ c ∈ l, c < 256) →
    atob (btoaChunks l) = some l := by
  intro l
  induction l using btoaChunks.induct with
  | case1 => intro _; rfl
  | case2 a =>
    intro h
    have ha : a < 256 := h a (by simp)
    have h0 : a / 4 < 64 := by omega
    have h1 : a % 4 * 16 < 64 := by omega
    simp [btoaChunks, atob, b64dec_b64enc _ h0, b64dec_b64enc _ h1]
    omega
  | case3 a b =>
    intro h
    have ha : a < 256 := h a (by simp)
    have hb : b < 256 := h b (by simp)
    have h0 : a / 4 < 64 := by omega
    have h1 : a % 4 * 16 + b / 16 < 64 := by omega
    have h2 : b % 16 * 4 < 64 := by omega
    have e2 : b64enc (b % 16 * 4) ≠ 61 := b64enc_ne_61 _ h2
    simp [btoaChunks, atob, b64dec_b64enc _ h0, b64dec_b64enc _ h1,
      b64dec_b64enc _ h2, if_neg e2]
    set u := a % 4 * 16 + b / 16 with hu
    omega
  | case4 a b c rest ih =>
    intro h
    have ha : a < 256 := h a (by simp)
    have hb : b < 256 := h b (by simp)
    have hc : c < 256 := h c (by simp)
    have hrest : ∀ x ∈ rest, x < 256 := fun x hx => h x (by simp [hx])
    have h0 : a / 4 < 64 := by omega
    have h1 : a % 4 * 16 + b / 16 < 64 := by omega
    have h2 : b % 16 * 4 + c / 64 < 64 := by omega
    have h3 : c % 64 < 64 := by omega
    have e2 : b64enc (b % 16 * 4 + c / 64) ≠ 61 := b64enc_ne_61 _ h2
    have e3 : b64enc (c % 64) ≠ 61 := b64enc_ne_61 _ h3
    simp [btoaChunks, atob, b64dec_b64enc _ h0, b64dec_b64enc _ h1,
      b64dec_b64enc _ h2, b64dec_b64enc _ h3, if_neg e2, if_neg e3, ih hrest]
    set u := a % 4 * 16 + b / 16 with hu
    set v := b % 16 * 4 + c / 64 with hv
    omega

/-! ## UTF-8 (`TextEncoder` / `TextDecoder` host primitives used by `BufferImpl`)

`TextEncoder.encode` maps Unicode text to its UTF-8 bytes.  `TextDecoder`
with `fatal: true` performs strict UTF-8 decoding, failing on any malformed
sequence (overlong encodings, surrogate code points, out-of-range leads).
The decoder is phrased as a one-scalar step function driven by a fuel
counter bounded by the input length (each step consumes at least one byte),
an equivalent rendering of the WHATWG byte-at-a-time state machine. -/

/-- A Unicode scalar value: a code point that is not a surrogate. -/
def validScalar (c : Nat) : Prop := c < 0x110000 ∧ (c < 0xD800 ∨ 0xE000 ≤ c)

instance (c : Nat) : Decidable (validScalar c) := by
  unfold validScalar; infer_instance

/-- UTF-8 encoding of one scalar value (1–4 bytes). -/
def utf8EncodeChar (c : Nat) : List Nat :=
  if c < 0x80 then [c]
  else if c < 0x800 then [0xC0 + c / 64, 0x80 + c % 64]
  else if c < 0x10000 then [0xE0 + c / 4096, 0x80 + c / 64 % 64, 0x80 + c % 64]
  else [0xF0 + c / 262144, 0x80 + c / 4096 % 64, 0x80 + c / 64 % 64, 0x80 + c % 64]

/-- `TextEncoder.encode`: UTF-8 bytes of a scalar-value sequence. -/
def utf8Encode (s : List Nat) : List Nat := (s.map utf8EncodeChar).flatten

/-- Strict UTF-8 decoding of one scalar value from the head of a byte list:
the admissible second-byte range depends on the lead byte so that overlong
forms and surrogates are rejected, per the WHATWG decoding algorithm. -/
def utf8DecodeOne : List Nat → Option (Nat × List Nat)
  | [] => none
  | b0 :: rest =>
    if b0 < 0x80 then some (b0, rest)
    else if b0 < 0xC2 then none
    else if b0 < 0xE0 then
      match rest with
      | b1 :: rest1 =>
        if 0x80 ≤ b1 ∧ b1 < 0xC0 then some ((b0 - 0xC0) * 64 + (b1 - 0x80), rest1)
        else none
      | [] => none
    else if b0 < 0xF0 then
      match rest with
      | b1 :: b2 :: rest2 =>
        if ((if b0 = 0xE0 then 0xA0 else 0x80) ≤ b1 ∧
             b1 < (if b0 = 0xED then 0xA0 else 0xC0)) ∧
           (0x80 ≤ b2 ∧ b2 < 0xC0) then
          some ((b0 - 0xE0) * 4096 + (b1 - 0x80) * 64 + (b2 - 0x80), rest2)
        else none
      | _ => none
    else if b0 < 0xF5 then
      match rest with
      | b1 :: b2 :: b3 :: rest3 =>
        if ((if b0 = 0xF0 then 0x90 else 0x80) ≤ b1 ∧
             b1 < (if b0 = 0xF4 then 0x90 else 0xC0)) ∧
           (0x80 ≤ b2 ∧ b2 < 0xC0) ∧ (0x80 ≤ b3 ∧ b3 < 0xC0) then
          some ((b0 - 0xF0) * 262144 + (b1 - 0x80) * 4096 +
                (b2 - 0x80) * 64 + (b3 - 0x80), rest3)
        else none
      | _ => none
    else none

/-- Fuel-driven strict decode loop; one unit of fuel per decoded scalar. -/
def utf8DecodeF : Nat → List Nat → Option (List Nat)
  | _, [] => some []
  | 0, _ :: _ => none
  | fuel + 1, b :: l =>
    match utf8DecodeOne (b :: l) with
    | some (c, rest) => (utf8DecodeF fuel rest).map (fun cs => c :: cs)
    | none => none

/-- `TextDecoder("utf-8", { fatal: true }).decode`: strict UTF-8 decoding of
a whole byte list (the input length bounds the number of scalars). -/
def utf8Decode (l : List Nat) : Option (List Nat) := utf8DecodeF l.length l

theorem utf8EncodeChar_ne_nil (c : Nat) : utf8EncodeChar c ≠ [] := by
  unfold utf8EncodeChar
  repeat' split
  all_goals simp

/-- Strict decoding of the UTF-8 bytes of one scalar value peels off exactly
that scalar value. -/
theorem utf8DecodeOne_encodeChar (c : Nat) (h : validScalar c) (rest : List Nat) :
    utf8DecodeOne (utf8EncodeChar c ++ rest) = some (c, rest) := by
  obtain ⟨hlt, hsurr⟩ := h
  by_cases h1 : c < 0x80
  · simp only [utf8EncodeChar, if_pos h1, List.cons_append, List.nil_append,
      utf8DecodeOne, if_pos h1]
  · by_cases h2 : c < 0x800
    · have e1 : ¬ (0xC0 + c / 64 < 0x80) := by omega
      have e2 : ¬ (0xC0 + c / 64 < 0xC2) := by omega
      have e3 : 0xC0 + c / 64 < 0xE0 := by omega
      simp only [utf8EncodeChar, if_neg h1, if_pos h2, List.cons_append, List.nil_append,
        utf8DecodeOne, if_neg e1, if_neg e2, if_pos e3]
      rw [if_pos (by omega : (0x80:Nat) ≤ 0x80 + c % 64 ∧ 0x80 + c % 64 < 0xC0)]
      have harith : (0xC0 + c / 64 - 0xC0) * 64 + (0x80 + c % 64 - 0x80) = c := by omega
      rw [harith]
    · by_cases h3 : c < 0x10000
      · have e1 : ¬ (0xE0 + c / 4096 < 0x80) := by omega
        have e2 : ¬ (0xE0 + c / 4096 < 0xC2) := by omega
        have e3 : ¬ (0xE0 + c / 4096 < 0xE0) := by omega
        have e4 : 0xE0 + c / 4096 < 0xF0 := by omega
        simp only [utf8EncodeChar, if_neg h1, if_neg h2, if_pos h3, List.cons_append,
          List.nil_append, utf8DecodeOne, if_neg e1, if_neg e2, if_neg e3, if_pos e4]
        rw [if_pos ?cond3]
        case cond3 =>
          refine ⟨⟨?_, ?_⟩, by omega, by omega⟩
          · split
            · next he => omega
            · omega
          · split
            · next he => omega
            · omega
        have harith : (0xE0 + c / 4096 - 0xE0) * 4096 + (0x80 + c / 64 % 64 - 0x80) * 64 +
            (0x80 + c % 64 - 0x80) = c := by omega
        rw [harith]
      · have e1 : ¬ (0xF0 + c / 262144 < 0x80) := by omega
        have e2 : ¬ (0xF0 + c / 262144 < 0xC2) := by omega
        have e3 : ¬ (0xF0 + c / 262144 < 0xE0) := by omega
        have e4 : ¬ (0xF0 + c / 262144 < 0xF0) := by omega
        have e5 : 0xF0 + c / 262144 < 0xF5 := by omega
        simp only [utf8EncodeChar, if_neg h1, if_neg h2, if_neg h3, List.cons_append,
          List.nil_append, utf8DecodeOne, if_neg e1, if_neg e2, if_neg e3, if_neg e4,
          if_pos e5]
        rw [if_pos ?cond4]
        case cond4 =>
          refine ⟨⟨?_, ?_⟩, ⟨by omega, by omega⟩, by omega, by omega⟩
          · split
            · next he => omega
            · omega
          · split
            · next he => omega
            · omega
        have harith : (0xF0 + c / 262144 - 0xF0) * 262144 +
            (0x80 + c / 4096 % 64 - 0x80) * 4096 +
            (0x80 + c / 64 % 64 - 0x80) * 64 + (0x80 + c % 64 - 0x80) = c := by omega
        rw [harith]

theorem utf8DecodeF_cons_step (fuel : Nat) (l : List Nat) (hl : l ≠ []) :
    utf8DecodeF (fuel + 1) l =
      match utf8DecodeOne l with
      | some (c, rest) => (utf8DecodeF fuel rest).map (fun cs => c :: cs)
      | none => none := by
  cases l with
  | nil => exact absurd rfl hl
  | cons b t => rfl

theorem utf8DecodeF_encode (s : List Nat) :
    ∀ fuel, (∀ c ∈ s, validScalar c) → s.length ≤ fuel →
      utf8DecodeF fuel (utf8Encode s) = some s := by
  induction s with
  | nil => intro fuel _ _; cases fuel <;> rfl
  | cons c cs ih =>
    intro fuel h hlen
    have hc : validScalar c := h c (by simp)
    have hcs : ∀ x ∈ cs, validScalar x := fun x hx => h x (by simp [hx])
    cases fuel with
    | zero => simp at hlen
    | succ f =>
      have henc : utf8Encode (c :: cs) = utf8EncodeChar c ++ utf8Encode cs := by
        simp [utf8Encode]
      rw [henc, utf8DecodeF_cons_step f _
            (by simp [utf8EncodeChar_ne_nil c]),
          utf8DecodeOne_encodeChar c hc]
      show (utf8DecodeF f (utf8Encode cs)).map (fun cs => c :: cs) = some (c :: cs)
      rw [ih f hcs (by simpa using hlen)]
      rfl

theorem utf8Encode_length_le (s : List Nat) : s.length ≤ (utf8Encode s).length := by
  induction s with
  | nil => simp [utf8Encode]
  | cons c cs ih =>
    have : utf8Encode (c :: cs) = utf8EncodeChar c ++ utf8Encode cs := by simp [utf8Encode]
    rw [this]
    have hne : 1 ≤ (utf8EncodeChar c).length := by
      cases he : utf8EncodeChar c with
      | nil => exact absurd he (utf8EncodeChar_ne_nil c)
      | cons x t => simp
    simp only [List.length_append, List.length_cons]
    omega

/-- Round trip: strict decoding of the UTF-8 encoding of Unicode text
reproduces the text, for arbitrary scalar values (multi-byte included). -/
theorem utf8Decode_utf8Encode (s : List Nat) (h : ∀ c ∈ s, validScalar c) :
    utf8Decode (utf8Encode s) = some s :=
  utf8DecodeF_encode s _ h (utf8Encode_length_le s)

/-! ## `TextDecoder` label registry (the slice exercised by this layer)

`BufferImpl.toString` hands any non-`"base64"` encoding name straight to
`new TextDecoder(encoding, { fatal: true })`.  `TextDecoder` accepts every
label of the WHATWG encoding registry, not just UTF-8; the model covers the
registry rows needed here: the UTF-8 labels and the windows-1252 ("latin1")
labels.  Labels outside the modelled rows are treated as unknown (the
`TextDecoder` constructor throws a `RangeError` for them); no claim below
depends on a label outside the modelled rows. -/

def utf8Labels : List String :=
  ["unicode-1-1-utf-8", "unicode11utf8", "unicode20utf8", "utf-8", "utf8",
   "x-unicode20utf8"]

def latin1Labels : List String :=
  ["ansi_x3.4-1968", "ascii", "cp1252", "cp819", "csisolatin1", "ibm819",
   "iso-8859-1", "iso8859-1", "iso88591", "iso_8859-1", "iso_8859-1:1987",
   "l1", "latin1", "us-ascii", "windows-1252", "x-cp1252"]

/-- windows-1252 mapping for the 0x80–0x9F range (other bytes map to the
identical code point). -/
def win1252Table : List Nat :=
  [0x20AC, 0x81, 0x201A, 0x0192, 0x201E, 0x2026, 0x2020, 0x2021,
   0x02C6, 0x2030, 0x0160, 0x2039, 0x0152, 0x8D, 0x017D, 0x8F,
   0x90, 0x2018, 0x2019, 0x201C, 0x201D, 0x2022, 0x2013, 0x2014,
   0x02DC, 0x2122, 0x0161, 0x203A, 0x0153, 0x9D, 0x017E, 0x0178]

def win1252Char (b : Nat) : Nat :=
  if b < 0x80 ∨ 0xA0 ≤ b then b else win1252Table.getD (b - 0x80) b

/-- windows-1252 decoding (total: every byte decodes). -/
def win1252Decode (bs : List Nat) : List Nat := bs.map win1252Char

/-! ## Byte Buffer (`BufferImpl`, platform.ts lines 124–178)

`BufferImpl` wraps an `ArrayBuffer`; modelled as the list of its bytes.
Failure modes of the source operations, by host primitive:
  * constructor, unknown encoding → explicit `throw` (`EncodingError`);
  * constructor, base64 path → `atob` may throw `InvalidCharacterError`;
  * `toString("base64")` → `new Uint16Array(this.data)` throws a
    `RangeError` when the byte length is odd, and `btoa` throws
    `InvalidCharacterError` when some 16-bit unit exceeds 255;
  * `toString(other)` → the `TextDecoder` constructor throws a `RangeError`
    on an unknown label, and strict decoding throws a `TypeError` on
    malformed input. -/

inductive BufErr where
  /-- constructor `throw new Error('Unsupported encoding ...')`, or an
  encoding label unknown to `TextDecoder` (spec taxonomy: `EncodingError`). -/
  | encoding (enc : String)
  /-- `InvalidCharacterError` from `atob`/`btoa`. -/
  | invalidChar
  /-- `RangeError` from viewing an odd-length buffer as `Uint16Array`. -/
  | rangeErr
  /-- `TypeError` from strict (`fatal: true`) text decoding. -/
  | decodeFatal
deriving DecidableEq, Repr

structure BufferImpl where
  /-- The bytes of the backing `ArrayBuffer` (each < 256). -/
  data : List Nat
deriving DecidableEq, Repr

/-- The 16-bit units of `new Uint16Array(buffer)`: consecutive byte pairs,
little-endian (the byte order of every platform the code runs on).  Only
applied to even-length data; a trailing odd byte would be unreachable. -/
def unitsLE : List Nat → List Nat
  | b0 :: b1 :: rest => (b0 + 256 * b1) :: unitsLE rest
  | _ => []

/-- Writing 16-bit units into a fresh `ArrayBuffer` of twice their count
(`new Uint16Array(this.data)` filled by `view[i] = binary.charCodeAt(i)`),
read back as bytes, little-endian. -/
def bytesOfUnitsLE (us : List Nat) : List Nat :=
  (us.map (fun u => [u % 256, u / 256 % 256])).flatten

/-- `new BufferImpl(data, encoding)` for string data (platform.ts 151–168):
base64 is checked first (via `atob`, into a *doubled* buffer through a
`Uint16Array` view), then utf8 (via `TextEncoder`), and any other encoding
throws.  For the utf8 path `data` is the text's scalar values; for the
base64 path `data` is the string's char codes. -/
def BufferImpl.fromString (data : List Nat) (encoding : String) :
    Except BufErr BufferImpl :=
  if encoding = "base64" then
    match atob data with
    | some binary => .ok ⟨bytesOfUnitsLE binary⟩
    | none => .error .invalidChar
  else if encoding = "utf8" then .ok ⟨utf8Encode data⟩
  else .error (.encoding encoding)

/-- `BufferImpl.prototype.toString(encoding)` (platform.ts 170–177):
`"base64"` reads the data as a `Uint16Array` and feeds the units to `btoa`;
any other encoding is handed to `new TextDecoder(encoding, {fatal: true})`. -/
def BufferImpl.toStr (b : BufferImpl) (encoding : String) :
    Except BufErr (List Nat) :=
  if encoding = "base64" then
    if b.data.length % 2 ≠ 0 then .error .rangeErr
    else
      match btoa (unitsLE b.data) with
      | some s => .ok s
      | none => .error .invalidChar
  else if encoding ∈ utf8Labels then
    match utf8Decode b.data with
    | some cs => .ok cs
    | none => .error .decodeFatal
  else if encoding ∈ latin1Labels then .ok (win1252Decode b.data)
  else .error (.encoding encoding)

/-- `BufferImpl.concat` (platform.ts 137–149): empty list gives an empty
buffer; a one-element list returns that very buffer (no copy); otherwise a
fresh buffer is filled with every input's bytes at increasing offsets. -/
def BufferImpl.concat : List BufferImpl → BufferImpl
  | [] => ⟨[]⟩
  | [b] => b
  | b1 :: b2 :: rest => ⟨((b1 :: b2 :: rest).map BufferImpl.data).flatten⟩

/-- Round-tripping raw bytes through `toString("base64")` and the base64
constructor, as the claim's byte-level law requires. -/
def b64ByteRoundTrip (bytes : List Nat) : Except BufErr (List Nat) :=
  (BufferImpl.mk bytes).toStr "base64" >>= fun s =>
    (BufferImpl.fromString s "base64").map BufferImpl.data

theorem unitsLE_zeroPairs (cs : List Nat) :
    unitsLE ((cs.map fun c => [c, 0]).flatten) = cs := by
  induction cs with
  | nil => rfl
  | cons c t ih => simp [unitsLE, ih]

theorem length_zeroPairs (cs : List Nat) :
    ((cs.map fun c => [c, 0]).flatten).length % 2 = 0 := by
  induction cs with
  | nil => rfl
  | cons c t ih =>
    simp only [List.map_cons, List.flatten_cons, List.length_append, List.length_cons,
      List.length_nil]
    omega

theorem bytesOfUnitsLE_small (cs : List Nat) (h : ∀ c ∈ cs, c < 256) :
    bytesOfUnitsLE cs = (cs.map fun c => [c, 0]).flatten := by
  induction cs with
  | nil => rfl
  | cons c t ih =>
    have hc : c < 256 := h c (by simp)
    have ht : ∀ x ∈ t, x < 256 := fun x hx => h x (by simp [hx])
    simp only [bytesOfUnitsLE, List.map_cons, List.flatten_cons] at ih ⊢
    rw [ih ht, Nat.mod_eq_of_lt hc, Nat.div_eq_of_lt hc]

/-- C3 counterexample: the byte-level base64 round-trip law fails on the
two-byte sequence `[1, 1]` — its single 16-bit unit is 257, so `btoa`
throws `InvalidCharacterError` and `toString("base64")` does not even
produce an encoding, let alone one that decodes back to `[1, 1]`. -/
theorem c3_base64_bytes_counterexample :
    b64ByteRoundTrip [1, 1] = .error .invalidChar ∧
    b64ByteRoundTrip [1, 1] ≠ .ok [1, 1] := by
  constructor
  · rfl
  · intro h
    rw [show b64ByteRoundTrip [1, 1] = .error .invalidChar from rfl] at h
    exact Except.noConfusion h

/-- C3 (amended): the utf8 round trip holds for every Unicode text (arbitrary
scalar values, multi-byte included); the base64 round trip holds only for
byte sequences whose 16-bit units stay below 256 — even length with every
odd-position byte zero, exactly the shape the base64 constructor itself
produces — and fails on arbitrary byte sequences. -/
theorem c3_roundtrip_amended (s : List Nat) (hs : ∀ c ∈ s, validScalar c)
    (cs : List Nat) (hcs : ∀ c ∈ cs, c < 256) :
    ((BufferImpl.fromString s "utf8").bind fun b => b.toStr "utf8") = .ok s ∧
    b64ByteRoundTrip ((cs.map fun c => [c, 0]).flatten) =
      .ok ((cs.map fun c => [c, 0]).flatten) := by
  constructor
  · have h1 : BufferImpl.fromString s "utf8" = .ok ⟨utf8Encode s⟩ := rfl
    rw [h1]
    show (match utf8Decode (utf8Encode s) with
          | some cs => (Except.ok cs : Except BufErr (List Nat))
          | none => Except.error BufErr.decodeFatal) = .ok s
    rw [utf8Decode_utf8Encode s hs]
  · have hall : (unitsLE ((cs.map fun c => [c, 0]).flatten)).all (fun c => c < 256) := by
      rw [unitsLE_zeroPairs]
      exact List.all_eq_true.mpr (fun c hc => by simpa using hcs c hc)
    have htostr : (BufferImpl.mk ((cs.map fun c => [c, 0]).flatten)).toStr "base64" =
        .ok (btoaChunks cs) := by
      show (if ((cs.map fun c => [c, 0]).flatten).length % 2 ≠ 0 then
              (Except.error BufErr.rangeErr : Except BufErr (List Nat))
            else
              match btoa (unitsLE ((cs.map fun c => [c, 0]).flatten)) with
              | some s => .ok s
              | none => .error .invalidChar) = .ok (btoaChunks cs)
      rw [if_neg (by rw [length_zeroPairs cs]; omega)]
      rw [show btoa (unitsLE ((cs.map fun c => [c, 0]).flatten)) =
            some (btoaChunks cs) from by
        rw [btoa, if_pos hall, unitsLE_zeroPairs]]
    rw [b64ByteRoundTrip, htostr]
    show (BufferImpl.fromString (btoaChunks cs) "base64").map BufferImpl.data =
      .ok ((cs.map fun c => [c, 0]).flatten)
    rw [show BufferImpl.fromString (btoaChunks cs) "base64" =
          .ok ⟨bytesOfUnitsLE cs⟩ from by
      show (match atob (btoaChunks cs) with
            | some binary => (Except.ok ⟨bytesOfUnitsLE binary⟩ : Except BufErr BufferImpl)
            | none => Except.error BufErr.invalidChar) = _
      rw [atob_btoaChunks cs hcs]]
    show Except.ok (bytesOfUnitsLE cs) = _
    rw [bytesOfUnitsLE_small cs hcs]

/-- C3 witness: the utf8 round trip at `"H𐍈"` (`[0x48, 0x10348]`, a one-byte
and a four-byte scalar) and the restricted base64 round trip at units
`[1, 2]` (bytes `[1, 0, 2, 0]`). -/
theorem c3_roundtrip_amended_witness :
    ((BufferImpl.fromString [0x48, 0x10348] "utf8").bind fun b => b.toStr "utf8") =
      .ok [0x48, 0x10348] ∧
    b64ByteRoundTrip (([1, 2].map fun c => [c, 0]).flatten) =
      .ok (([1, 2].map fun c => [c, 0]).flatten) :=
  c3_roundtrip_amended [0x48, 0x10348] (by decide) [1, 2] (by decide)

/-- C7: `concat([])` is empty; `concat([b])` returns `b` itself (the very
buffer, aliased, not a copy); `concat` of two or more buffers has the
bytewise concatenation of the inputs in list order as content, and the sum
of the inputs' byte lengths as byte length. -/
theorem c7_concat_spec (b b1 b2 : BufferImpl) (rest : List BufferImpl) :
    (BufferImpl.concat []).data = [] ∧
    BufferImpl.concat [b] = b ∧
    (BufferImpl.concat (b1 :: b2 :: rest)).data =
      b1.data ++ (b2.data ++ (rest.map BufferImpl.data).flatten) ∧
    (BufferImpl.concat (b1 :: b2 :: rest)).data.length =
      ((b1 :: b2 :: rest).map (fun x => x.data.length)).sum := by
  refine ⟨rfl, rfl, ?_, ?_⟩
  · show ((b1 :: b2 :: rest).map BufferImpl.data).flatten = _
    simp
  · show ((b1 :: b2 :: rest).map BufferImpl.data).flatten.length = _
    rw [List.length_flatten, List.map_map]
    rfl

/-- C9 counterexample: `toString("latin1")` on a buffer does *not* fail —
the encoding name is passed to the host `TextDecoder`, which recognises
`"latin1"` (windows-1252) — contradicting the claim that every encoding
other than `"utf8"` and `"base64"` fails with `EncodingError`. -/
theorem c9_counterexample : (BufferImpl.mk [65]).toStr "latin1" = .ok [65] := by rfl

/-- C9 (amended): when *constructing* a buffer from a string, any encoding
other than `"utf8"` and `"base64"` fails with `EncodingError`; `toString`,
however, forwards the encoding to the host text decoder, which accepts
further labels — e.g. `"latin1"` succeeds — and only labels unknown to the
decoder fail. -/
theorem c9_unsupported_encoding_amended (d : List Nat) (enc : String)
    (h1 : enc ≠ "utf8") (h2 : enc ≠ "base64") :
    BufferImpl.fromString d enc = .error (BufErr.encoding enc) ∧
    (BufferImpl.mk [65]).toStr "latin1" = .ok [65] := by
  refine ⟨?_, rfl⟩
  rw [BufferImpl.fromString, if_neg h2, if_neg h1]

/-- C9 witness: the amended statement at the unsupported encoding `"hex"`. -/
theorem c9_unsupported_encoding_amended_witness :
    BufferImpl.fromString [0] "hex" = .error (BufErr.encoding "hex") ∧
    (BufferImpl.mk [65]).toStr "latin1" = .ok [65] :=
  c9_unsupported_encoding_amended [0] "hex" (by decide) (by decide)

/-! ## URL Match Predicate (`urlMatches`, platform.ts 221–236)

The source tests, in order: `undefined`/empty pattern → `true`; then **any**
string pattern is replaced by `helper.globToRegex(match)`, and the following
`match instanceof RegExp` branch returns the regex test against the full URL
string.  Consequently the later `match === urlString` and
`url.pathname === match` branches can never execute for a string pattern —
every string has already been converted to a `RegExp` — so string matching
is entirely the glob-regex test.  `RegExp` and predicate-function patterns
are outside the claims and not modelled.

`helper.globToRegex` lives in `helper.ts`, which is not part of the sources;
it is modelled from the spec: a glob pattern is converted to an equivalent,
fully-anchored regular expression which is then tested against the full URL
string, so the test accepts exactly the strings the glob matches.  `*`
matches any run of characters and `?` any single character; the exact
character class of `*` and the brace-group syntax are irrelevant to the
claims settled here, which only use patterns free of glob metacharacters
(and for such patterns the glob matches exactly the pattern itself). -/

/-- Modelled from the spec: the result of testing `globToRegex pattern`
against a string, as a fuel-driven matcher (fuel: one unit per consumed
pattern or subject character; `pattern.length + s.length` always suffices). -/
def globMatchF : Nat → List Char → List Char → Bool
  | _, [], s => s.isEmpty
  | 0, _ :: _, _ => false
  | fuel + 1, c :: pt, s =>
    if c = '*' then
      globMatchF fuel pt s ||
        (match s with
         | [] => false
         | _ :: st => globMatchF fuel (c :: pt) st)
    else
      match s with
      | [] => false
      | c' :: st => if c = '?' then globMatchF fuel pt st
                    else (c == c') && globMatchF fuel pt st

/-- Modelled from the spec: `globToRegex(pattern).test(s)`. -/
def globTest (pattern s : String) : Bool :=
  globMatchF (pattern.length + s.length) pattern.data s.data

/-- `urlMatches(urlString, match)` for absent and string patterns
(platform.ts 221–236): absent or empty pattern always matches; any other
string pattern is converted by `globToRegex` and tested against the full
URL string. -/
def urlMatches (urlString : String) (m : Option String) : Bool :=
  match m with
  | none => true
  | some pattern =>
    if pattern = "" then true
    else globTest pattern urlString

theorem globMatchF_literal : ∀ (fuel : Nat) (ps s : List Char),
    ps.length + s.length ≤ fuel → (∀ c ∈ ps, c ≠ '*' ∧ c ≠ '?') →
    (globMatchF fuel ps s = true ↔ ps = s) := by
  intro fuel
  induction fuel with
  | zero =>
    intro ps s hlen _
    cases ps with
    | nil =>
      simp only [globMatchF, List.isEmpty_iff]
      exact ⟨fun h => h.symm, fun h => h.symm⟩
    | cons c pt => simp at hlen
  | succ f ih =>
    intro ps s hlen hmeta
    cases ps with
    | nil =>
      simp only [globMatchF, List.isEmpty_iff]
      exact ⟨fun h => h.symm, fun h => h.symm⟩
    | cons c pt =>
      have hc : c ≠ '*' ∧ c ≠ '?' := hmeta c (by simp)
      have hpt : ∀ x ∈ pt, x ≠ '*' ∧ x ≠ '?' := fun x hx => hmeta x (by simp [hx])
      simp only [globMatchF, if_neg hc.1]
      cases s with
      | nil => simp
      | cons c' st =>
        show (if c = '?' then globMatchF f pt st
              else (c == c') && globMatchF f pt st) = true ↔ c :: pt = c' :: st
        rw [if_neg hc.2]
        have hrec := ih pt st (by simp at hlen ⊢; omega) hpt
        simp only [Bool.and_eq_true, beq_iff_eq, List.cons.injEq, hrec]

/-- C8 counterexample: the claimed path-component fallback does not exist —
`"/path"`, a plain text pattern, is converted to an anchored glob regex and
tested against the full URL string, so it does *not* match
`"http://host/path"` (the claim says it does). -/
theorem c8_pathname_counterexample :
    urlMatches "http://host/path" (some "/path") = false := by rfl

/-- C8 (amended): an absent or empty pattern always matches; a plain text
pattern (no glob metacharacters) is — like every string pattern — converted
to a glob-derived, fully-anchored regular expression and tested against the
full URL string, so it matches exactly when it equals the full URL string;
the path-component comparison in the source is unreachable for string
patterns, hence `urlMatches("http://host/path", "/path")` is `false`. -/
theorem c8_urlMatches_amended (u p : String) (hne : p ≠ "")
    (hmeta : ∀ c ∈ p.data, c ≠ '*' ∧ c ≠ '?' ∧ c.toNat ≠ 123 ∧ c.toNat ≠ 125) :
    urlMatches u none = true ∧
    urlMatches u (some "") = true ∧
    (urlMatches u (some p) = true ↔ p = u) := by
  refine ⟨rfl, rfl, ?_⟩
  show (if p = "" then true else globTest p u) = true ↔ p = u
  rw [if_neg hne]
  rw [globTest, globMatchF_literal (p.length + u.length) p.data u.data
        (by rfl) (fun c hc => ⟨(hmeta c hc).1, (hmeta c hc).2.1⟩)]
  exact ⟨fun h => String.ext h, fun h => by rw [h]⟩

/-- C8 witness: the amended statement at the counterexample's inputs — the
equivalence reduces `urlMatches("http://host/path", "/path")` to the (false)
equality `"/path" = "http://host/path"`. -/
theorem c8_urlMatches_amended_witness :
    urlMatches "http://host/path" none = true ∧
    urlMatches "http://host/path" (some "") = true ∧
    (urlMatches "http://host/path" (some "/path") = true ↔
      "/path" = "http://host/path") :=
  c8_urlMatches_amended "http://host/path" "/path" (by decide) (by decide)

/-! ## Publish-Subscribe Dispatcher (`EventEmitterImpl`, platform.ts 56–113)

The dispatcher is embedded deeply: listeners are identified by keys, and a
listener's body is a list of commands (re-emitting, registering, removing),
so that synchronous reentrant emission from inside a listener is expressible.
JS `Map`/`Set` insertion-order semantics are modelled with ordered
association/duplicate-free lists.  Each `once` call allocates a fresh
wrapper closure; wrappers get fresh ids from a counter.

Execution is a fuel-indexed interpreter `step` over tasks; every transition
of the source's `emit` (platform.ts 89–106) — the early return when no
listener is registered, queue creation by the drain owner, append-only
behaviour of nested emits, and the index-driven drain loop over the possibly
still-growing queue — is mirrored directly.  A trace records every queued
(listener, args) pair, every pair invocation by the drain loop, every user
listener call, and every drain start. -/

/-- A registered listener: a user listener (by id) or a `once` wrapper. -/
inductive LKey where
  | user (id : Nat)
  | wrap (wid : Nat)
deriving DecidableEq, Repr

/-- Commands a listener body may perform on its dispatcher. -/
inductive Cmd where
  | emitC (ev : String) (args : List Nat)
  | onC (ev : String) (uid : Nat)
  | onceC (ev : String) (uid : Nat)
  | removeC (ev : String) (uid : Nat)
deriving DecidableEq, Repr

/-- Dispatcher state: `_listeners` (Map from event to insertion-ordered
Set of listeners), the wrapper closures created by `once` (id, event,
inner user listener), a fresh-wrapper counter, and `_deliveryQueue`. -/
structure EE where
  listeners : List (String × List LKey)
  wrappers : List (Nat × String × Nat)
  nextW : Nat
  queue : Option (List (LKey × List Nat))
deriving DecidableEq, Repr

/-- `Map.get`: the listener set of an event (empty if absent). -/
def getSet (m : List (String × List LKey)) (ev : String) : List LKey :=
  match m.find? (fun p => p.1 == ev) with
  | some p => p.2
  | none => []

/-- `Set.add`: append if not already present (identity-unique, re-adding is
a no-op, insertion order preserved). -/
def setAdd (s : List LKey) (k : LKey) : List LKey :=
  if k ∈ s then s else s ++ [k]

/-- `Map.set`-backed registration on the listener map (platform.ts 60–68). -/
def mapAdd (m : List (String × List LKey)) (ev : String) (k : LKey) :
    List (String × List LKey) :=
  match m with
  | [] => [(ev, [k])]
  | (e, s) :: rest =>
    if e = ev then (e, setAdd s k) :: rest else (e, s) :: mapAdd rest ev k

/-- `Set.delete` on the event's set (platform.ts 82–87); an absent entry or
listener is a no-op. -/
def mapRemove (m : List (String × List LKey)) (ev : String) (k : LKey) :
    List (String × List LKey) :=
  match m with
  | [] => []
  | (e, s) :: rest =>
    if e = ev then (e, s.erase k) :: rest else (e, s) :: mapRemove rest ev k

/-- `on`/`addListener` (platform.ts 60–72). -/
def eeOn (st : EE) (ev : String) (k : LKey) : EE :=
  { st with listeners := mapAdd st.listeners ev k }

/-- `once` (platform.ts 74–80): allocate a fresh wrapper closure over
(event, inner listener) and register the wrapper. -/
def eeOnce (st : EE) (ev : String) (uid : Nat) : EE :=
  { st with
    wrappers := st.wrappers ++ [(st.nextW, ev, uid)],
    nextW := st.nextW + 1,
    listeners := mapAdd st.listeners ev (LKey.wrap st.nextW) }

/-- `removeListener` (platform.ts 82–87). -/
def eeRemove (st : EE) (ev : String) (k : LKey) : EE :=
  { st with listeners := mapRemove st.listeners ev k }

/-- Trace events of a dispatcher run. -/
inductive TEv where
  /-- a (listener, args) pair pushed onto the delivery queue by `emit` -/
  | queuedE (p : LKey × List Nat)
  /-- a (listener, args) pair invoked by the drain loop -/
  | invokedE (p : LKey × List Nat)
  /-- a user listener body actually called (directly or through a wrapper) -/
  | calledE (uid : Nat) (args : List Nat)
  /-- the drain owner starts iterating the queue -/
  | drainStartE
deriving DecidableEq, Repr

/-- Interpreter tasks: run `emit`, run the drain loop from an index, invoke
one queued listener, or run a listener body's remaining commands. -/
inductive Task where
  | emitT (ev : String) (args : List Nat)
  | drainT (i : Nat)
  | invokeT (k : LKey) (args : List Nat)
  | cmdsT (cs : List Cmd)
deriving DecidableEq, Repr

def isDrainT : Task → Bool
  | Task.drainT _ => true
  | _ => false

/-- Fuel-indexed interpreter.  `env uid` is the body of user listener `uid`.
`emitT` is platform.ts 89–106 verbatim: an empty listener set returns with
no side effect; otherwise the current set's pairs are appended to the
delivery queue (created here by the drain owner when absent); only the
creator then drains, by index, re-reading the queue each iteration; nested
emits return right after appending.  `invokeT` on a wrapper first removes
the wrapper from the registry and then calls the inner listener
(platform.ts 75–78). -/
def step (env : Nat → List Cmd) : Nat → EE → Task → Option (EE × List TEv)
  | 0, _, _ => none
  | fuel + 1, st, Task.emitT ev args =>
    let set := getSet st.listeners ev
    if set = [] then some (st, [])
    else
      let pairs := set.map (fun k => (k, args))
      let st1 := { st with queue := some (st.queue.getD [] ++ pairs) }
      if st.queue.isNone then
        (step env fuel st1 (Task.drainT 0)).map
          (fun r => (r.1, pairs.map TEv.queuedE ++ TEv.drainStartE :: r.2))
      else some (st1, pairs.map TEv.queuedE)
  | fuel + 1, st, Task.drainT i =>
    let q := st.queue.getD []
    if h : i < q.length then
      (step env fuel st (Task.invokeT q[i].1 q[i].2)).bind fun r1 =>
        (step env fuel r1.1 (Task.drainT (i + 1))).map fun r2 =>
          (r2.1, TEv.invokedE q[i] :: (r1.2 ++ r2.2))
    else some ({ st with queue := none }, [])
  | fuel + 1, st, Task.invokeT k args =>
    match k with
    | LKey.user uid =>
      (step env fuel st (Task.cmdsT (env uid))).map
        (fun r => (r.1, TEv.calledE uid args :: r.2))
    | LKey.wrap wid =>
      match st.wrappers.find? (fun w => w.1 == wid) with
      | some w =>
        (step env fuel (eeRemove st w.2.1 (LKey.wrap wid)) (Task.cmdsT (env w.2.2))).map
          (fun r => (r.1, TEv.calledE w.2.2 args :: r.2))
      | none => some (st, [])
  | _ + 1, st, Task.cmdsT [] => some (st, [])
  | fuel + 1, st, Task.cmdsT (c :: cs) =>
    match c with
    | Cmd.emitC ev args =>
      (step env fuel st (Task.emitT ev args)).bind fun r1 =>
        (step env fuel r1.1 (Task.cmdsT cs)).map fun r2 => (r2.1, r1.2 ++ r2.2)
    | Cmd.onC ev uid =>
      (step env fuel (eeOn st ev (LKey.user uid)) (Task.cmdsT cs))
    | Cmd.onceC ev uid =>
      (step env fuel (eeOnce st ev uid) (Task.cmdsT cs))
    | Cmd.removeC ev uid =>
      (step env fuel (eeRemove st ev (LKey.user uid)) (Task.cmdsT cs))

/-- The (listener, args) pairs queued in a trace, in queueing order. -/
def queuedOf (tr : List TEv) : List (LKey × List Nat) :=
  tr.filterMap fun e =>
    match e with
    | TEv.queuedE p => some p
    | _ => none

/-- The (listener, args) pairs invoked by drain loops, in invocation order. -/
def invokedOf (tr : List TEv) : List (LKey × List Nat) :=
  tr.filterMap fun e =>
    match e with
    | TEv.invokedE p => some p
    | _ => none

/-- How many drain loops were started during a trace. -/
def drainCount (tr : List TEv) : Nat :=
  tr.countP fun e =>
    match e with
    | TEv.drainStartE => true
    | _ => false

/-- How many times user listener `uid` was called during a trace. -/
def callsOf (tr : List TEv) (uid : Nat) : Nat :=
  tr.countP fun e =>
    match e with
    | TEv.calledE u _ => u == uid
    | _ => false

/-- Total number of user-listener calls in a trace. -/
def callsTotal (tr : List TEv) : Nat :=
  tr.countP fun e =>
    match e with
    | TEv.calledE _ _ => true
    | _ => false

@[simp] theorem queuedOf_nil : queuedOf [] = [] := rfl

@[simp] theorem queuedOf_cons_queued (p : LKey × List Nat) (tr : List TEv) :
    queuedOf (TEv.queuedE p :: tr) = p :: queuedOf tr := rfl

@[simp] theorem queuedOf_cons_invoked (p : LKey × List Nat) (tr : List TEv) :
    queuedOf (TEv.invokedE p :: tr) = queuedOf tr := rfl

@[simp] theorem queuedOf_cons_called (u : Nat) (a : List Nat) (tr : List TEv) :
    queuedOf (TEv.calledE u a :: tr) = queuedOf tr := rfl

@[simp] theorem queuedOf_cons_drain (tr : List TEv) :
    queuedOf (TEv.drainStartE :: tr) = queuedOf tr := rfl

@[simp] theorem queuedOf_append (a b : List TEv) :
    queuedOf (a ++ b) = queuedOf a ++ queuedOf b := by
  simp [queuedOf, List.filterMap_append]

@[simp] theorem queuedOf_map_queuedE (l : List (LKey × List Nat)) :
    queuedOf (l.map TEv.queuedE) = l := by
  induction l with
  | nil => rfl
  | cons p t ih => simp [ih]

@[simp] theorem queuedOf_map_queuedE_comp {α : Type} (fn : α → LKey × List Nat)
    (l : List α) : queuedOf (l.map fun x => TEv.queuedE (fn x)) = l.map fn := by
  induction l with
  | nil => rfl
  | cons p t ih => simp [ih]

@[simp] theorem invokedOf_nil : invokedOf [] = [] := rfl

@[simp] theorem invokedOf_cons_queued (p : LKey × List Nat) (tr : List TEv) :
    invokedOf (TEv.queuedE p :: tr) = invokedOf tr := rfl

@[simp] theorem invokedOf_cons_invoked (p : LKey × List Nat) (tr : List TEv) :
    invokedOf (TEv.invokedE p :: tr) = p :: invokedOf tr := rfl

@[simp] theorem invokedOf_cons_called (u : Nat) (a : List Nat) (tr : List TEv) :
    invokedOf (TEv.calledE u a :: tr) = invokedOf tr := rfl

@[simp] theorem invokedOf_cons_drain (tr : List TEv) :
    invokedOf (TEv.drainStartE :: tr) = invokedOf tr := rfl

@[simp] theorem invokedOf_append (a b : List TEv) :
    invokedOf (a ++ b) = invokedOf a ++ invokedOf b := by
  simp [invokedOf, List.filterMap_append]

@[simp] theorem invokedOf_map_queuedE (l : List (LKey × List Nat)) :
    invokedOf (l.map TEv.queuedE) = [] := by
  induction l with
  | nil => rfl
  | cons p t ih => simpa using ih

@[simp] theorem invokedOf_map_queuedE_comp {α : Type} (fn : α → LKey × List Nat)
    (l : List α) : invokedOf (l.map fun x => TEv.queuedE (fn x)) = [] := by
  induction l with
  | nil => rfl
  | cons p t ih => simpa using ih

@[simp] theorem drainCount_nil : drainCount [] = 0 := rfl

@[simp] theorem drainCount_cons_queued (p : LKey × List Nat) (tr : List TEv) :
    drainCount (TEv.queuedE p :: tr) = drainCount tr := rfl

@[simp] theorem drainCount_cons_invoked (p : LKey × List Nat) (tr : List TEv) :
    drainCount (TEv.invokedE p :: tr) = drainCount tr := rfl

@[simp] theorem drainCount_cons_called (u : Nat) (a : List Nat) (tr : List TEv) :
    drainCount (TEv.calledE u a :: tr) = drainCount tr := rfl

@[simp] theorem drainCount_cons_drain (tr : List TEv) :
    drainCount (TEv.drainStartE :: tr) = drainCount tr + 1 := by
  simp [drainCount, List.countP_cons]

@[simp] theorem drainCount_append (a b : List TEv) :
    drainCount (a ++ b) = drainCount a + drainCount b := by
  simp [drainCount, List.countP_append]

@[simp] theorem drainCount_map_queuedE (l : List (LKey × List Nat)) :
    drainCount (l.map TEv.queuedE) = 0 := by
  induction l with
  | nil => rfl
  | cons p t ih => simpa using ih

@[simp] theorem drainCount_map_queuedE_comp {α : Type} (fn : α → LKey × List Nat)
    (l : List α) : drainCount (l.map fun x => TEv.queuedE (fn x)) = 0 := by
  induction l with
  | nil => rfl
  | cons p t ih => simpa using ih

@[simp] theorem eeOn_queue (st : EE) (ev : String) (k : LKey) :
    (eeOn st ev k).queue = st.queue := rfl

@[simp] theorem eeOnce_queue (st : EE) (ev : String) (uid : Nat) :
    (eeOnce st ev uid).queue = st.queue := rfl

@[simp] theorem eeRemove_queue (st : EE) (ev : String) (k : LKey) :
    (eeRemove st ev k).queue = st.queue := rfl

/-- Any interpreter task other than a drain loop, run while a delivery
queue exists (i.e. nested inside an active drain), only *appends* to the
queue — it invokes no queued pair and starts no drain.  This is the
append-and-return discipline of nested `emit` calls, propagated through
listener bodies. -/
theorem step_nested (env : Nat → List Cmd) :
    ∀ fuel st t q st' tr, st.queue = some q → isDrainT t = false →
      step env fuel st t = some (st', tr) →
      st'.queue = some (q ++ queuedOf tr) ∧ invokedOf tr = [] ∧ drainCount tr = 0 := by
  intro fuel
  induction fuel with
  | zero => intro st t q st' tr _ _ h; exact absurd h (by simp [step])
  | succ f ih =>
    intro st t q st' tr hq hd h
    cases t with
    | emitT ev args =>
      simp only [step] at h
      by_cases hset : getSet st.listeners ev = []
      · rw [if_pos hset] at h
        rw [Option.some.injEq, Prod.mk.injEq] at h
        obtain ⟨rfl, rfl⟩ := h
        exact ⟨by simp [hq], rfl, rfl⟩
      · rw [if_neg hset, hq] at h
        simp only [Option.getD_some, Option.isNone_some, Bool.false_eq_true,
          if_false] at h
        rw [Option.some.injEq, Prod.mk.injEq] at h
        obtain ⟨rfl, rfl⟩ := h
        refine ⟨by simp [Function.comp_def], by simp [Function.comp_def],
          by simp [Function.comp_def]⟩
    | drainT i => simp [isDrainT] at hd
    | invokeT k args =>
      cases k with
      | user uid =>
        simp only [step] at h
        cases hs : step env f st (Task.cmdsT (env uid)) with
        | none => rw [hs] at h; simp at h
        | some r =>
          rw [hs] at h
          simp only [Option.map_some', Option.some.injEq, Prod.mk.injEq] at h
          obtain ⟨rfl, rfl⟩ := h
          obtain ⟨h1, h2, h3⟩ := ih st (Task.cmdsT (env uid)) q r.1 r.2 hq rfl hs
          exact ⟨h1, by simp [h2], by simp [h3]⟩
      | wrap wid =>
        cases hw : st.wrappers.find? (fun w => w.1 == wid) with
        | none =>
          simp only [step, hw] at h
          rw [Option.some.injEq, Prod.mk.injEq] at h
          obtain ⟨rfl, rfl⟩ := h
          exact ⟨by simp [hq], rfl, rfl⟩
        | some w =>
          simp only [step, hw] at h
          cases hs : step env f (eeRemove st w.2.1 (LKey.wrap wid))
              (Task.cmdsT (env w.2.2)) with
          | none => rw [hs] at h; simp at h
          | some r =>
            rw [hs] at h
            simp only [Option.map_some', Option.some.injEq, Prod.mk.injEq] at h
            obtain ⟨rfl, rfl⟩ := h
            obtain ⟨h1, h2, h3⟩ := ih (eeRemove st w.2.1 (LKey.wrap wid))
              (Task.cmdsT (env w.2.2)) q r.1 r.2 (by simpa using hq) rfl hs
            exact ⟨h1, by simp [h2], by simp [h3]⟩
    | cmdsT cs =>
      cases cs with
      | nil =>
        simp only [step] at h
        rw [Option.some.injEq, Prod.mk.injEq] at h
        obtain ⟨rfl, rfl⟩ := h
        exact ⟨by simp [hq], rfl, rfl⟩
      | cons c cs' =>
        cases c with
        | emitC ev args =>
          simp only [step] at h
          cases h1 : step env f st (Task.emitT ev args) with
          | none => rw [h1] at h; simp at h
          | some r1 =>
            rw [h1] at h
            simp only [Option.some_bind] at h
            cases h2 : step env f r1.1 (Task.cmdsT cs') with
            | none => rw [h2] at h; simp at h
            | some r2 =>
              rw [h2] at h
              simp only [Option.map_some', Option.some.injEq, Prod.mk.injEq] at h
              obtain ⟨rfl, rfl⟩ := h
              obtain ⟨a1, a2, a3⟩ := ih st (Task.emitT ev args) q r1.1 r1.2 hq rfl h1
              obtain ⟨b1, b2, b3⟩ := ih r1.1 (Task.cmdsT cs') (q ++ queuedOf r1.2) r2.1 r2.2 a1 rfl h2
              refine ⟨?_, by simp [a2, b2], by simp [a3, b3]⟩
              rw [b1]
              simp [List.append_assoc]
        | onC ev uid =>
          simp only [step] at h
          obtain ⟨h1, h2, h3⟩ := ih (eeOn st ev (LKey.user uid)) (Task.cmdsT cs') q st' tr
            (by simpa using hq) rfl h
          exact ⟨h1, h2, h3⟩
        | onceC ev uid =>
          simp only [step] at h
          obtain ⟨h1, h2, h3⟩ := ih (eeOnce st ev uid) (Task.cmdsT cs') q st' tr
            (by simpa using hq) rfl h
          exact ⟨h1, h2, h3⟩
        | removeC ev uid =>
          simp only [step] at h
          obtain ⟨h1, h2, h3⟩ := ih (eeRemove st ev (LKey.user uid)) (Task.cmdsT cs') q st' tr
            (by simpa using hq) rfl h
          exact ⟨h1, h2, h3⟩

/-- The drain loop (platform.ts 100–104), started at index `i` on an
existing queue `q`: it invokes, in order, exactly the pairs of the final
queue from index `i` on — where the final queue is `q` extended by
everything queued during the drain — and then discards the queue.  No
further drain starts inside it. -/
theorem step_drain (env : Nat → List Cmd) :
    ∀ fuel st i q st' tr, st.queue = some q →
      step env fuel st (Task.drainT i) = some (st', tr) →
      st'.queue = none ∧ invokedOf tr = (q ++ queuedOf tr).drop i ∧
        drainCount tr = 0 := by
  intro fuel
  induction fuel with
  | zero => intro st i q st' tr _ h; exact absurd h (by simp [step])
  | succ f ih =>
    intro st i q st' tr hq h
    simp only [step, hq, Option.getD_some] at h
    by_cases hlt : i < q.length
    · rw [dif_pos hlt] at h
      cases h1 : step env f st (Task.invokeT q[i].1 q[i].2) with
      | none => rw [h1] at h; simp at h
      | some r1 =>
        rw [h1] at h
        simp only [Option.some_bind] at h
        cases h2 : step env f r1.1 (Task.drainT (i + 1)) with
        | none => rw [h2] at h; simp at h
        | some r2 =>
          rw [h2] at h
          simp only [Option.map_some', Option.some.injEq, Prod.mk.injEq] at h
          obtain ⟨rfl, rfl⟩ := h
          obtain ⟨n1, n2, n3⟩ := step_nested env f st (Task.invokeT q[i].1 q[i].2)
            q r1.1 r1.2 hq rfl h1
          obtain ⟨d1, d2, d3⟩ := ih r1.1 (i + 1) (q ++ queuedOf r1.2) r2.1 r2.2 n1 h2
          refine ⟨d1, ?_, by simp [n3, d3]⟩
          have hi2 : i < (q ++ (queuedOf r1.2 ++ queuedOf r2.2)).length := by
            simp only [List.length_append]; omega
          rw [show invokedOf (TEv.invokedE q[i] :: (r1.2 ++ r2.2)) =
                q[i] :: invokedOf r2.2 from by simp [n2]]
          rw [show queuedOf (TEv.invokedE q[i] :: (r1.2 ++ r2.2)) =
                queuedOf r1.2 ++ queuedOf r2.2 from by simp]
          rw [List.drop_eq_getElem_cons hi2,
              List.getElem_append_left hlt]
          rw [d2, List.append_assoc]
    · rw [dif_neg hlt] at h
      rw [Option.some.injEq, Prod.mk.injEq] at h
      obtain ⟨rfl, rfl⟩ := h
      refine ⟨rfl, ?_, rfl⟩
      rw [show queuedOf ([] : List TEv) = [] from rfl, List.append_nil]
      rw [List.drop_eq_nil_of_le (by omega)]
      rfl

/-- C1: across arbitrarily deep reentrant emission on the same dispatcher,
any terminating `emit` started with no active drain invokes exactly the
queued (listener, args) pairs, each exactly once, in first-queued-first-
invoked order (the invocation sequence *is* the queueing sequence); at most
one drain loop ever starts (the one belonging to this `emit`; nested emits
only append, as `step_nested` shows), and the queue is gone afterwards. -/
theorem emit_reentrant_fifo (env : Nat → List Cmd) (fuel : Nat) (st : EE)
    (ev : String) (args : List Nat) (st' : EE) (tr : List TEv)
    (hq : st.queue = none)
    (h : step env fuel st (Task.emitT ev args) = some (st', tr)) :
    invokedOf tr = queuedOf tr ∧ drainCount tr ≤ 1 ∧ st'.queue = none := by
  cases fuel with
  | zero => exact absurd h (by simp [step])
  | succ f =>
    simp only [step, hq] at h
    by_cases hset : getSet st.listeners ev = []
    · rw [if_pos hset] at h
      rw [Option.some.injEq, Prod.mk.injEq] at h
      obtain ⟨rfl, rfl⟩ := h
      exact ⟨rfl, by simp, hq⟩
    · rw [if_neg hset] at h
      simp only [Option.getD_none, Option.isNone_none, List.nil_append, if_true] at h
      cases hd : step env f
          { st with queue := some ((getSet st.listeners ev).map (fun k => (k, args))) }
          (Task.drainT 0) with
      | none => rw [hd] at h; simp at h
      | some r =>
        rw [hd] at h
        simp only [Option.map_some', Option.some.injEq, Prod.mk.injEq] at h
        obtain ⟨rfl, rfl⟩ := h
        obtain ⟨d1, d2, d3⟩ := step_drain env f _ 0
          ((getSet st.listeners ev).map (fun k => (k, args))) r.1 r.2 rfl hd
        rw [List.drop_zero] at d2
        refine ⟨?_, ?_, d1⟩
        · simp [Function.comp_def, d2]
        · simp [Function.comp_def, d3]

/-- C1 witness: a dispatcher with one registered listener for `"x"` whose
body does nothing; `emit("x")` at fuel 6 queues one pair, starts one drain,
and invokes that pair once. -/
theorem emit_reentrant_fifo_witness :
    invokedOf [TEv.queuedE (LKey.user 1, []), TEv.drainStartE,
               TEv.invokedE (LKey.user 1, []), TEv.calledE 1 []] =
      queuedOf [TEv.queuedE (LKey.user 1, []), TEv.drainStartE,
                TEv.invokedE (LKey.user 1, []), TEv.calledE 1 []] ∧
    drainCount [TEv.queuedE (LKey.user 1, []), TEv.drainStartE,
                TEv.invokedE (LKey.user 1, []), TEv.calledE 1 []] ≤ 1 ∧
    (EE.mk [("x", [LKey.user 1])] [] 0 none).queue = none :=
  emit_reentrant_fifo (fun _ => []) 6 ⟨[("x", [LKey.user 1])], [], 0, none⟩ "x" []
    ⟨[("x", [LKey.user 1])], [], 0, none⟩
    [TEv.queuedE (LKey.user 1, []), TEv.drainStartE,
     TEv.invokedE (LKey.user 1, []), TEv.calledE 1 []] rfl rfl

/-- C2: with `once("x", f1)` registered first (f1 re-emits `"x"`
synchronously) and `on("x", f2)` second, one `emit("x")` calls f1 exactly
once and f2 exactly twice, and nothing else: the once wrapper removes
itself *before* calling f1, so the nested emission queues only f2 again. -/
theorem once_reemit_scenario :
    (step (fun uid => if uid = 1 then [Cmd.emitC "x" []] else []) 30
        ⟨[], [], 0, none⟩
        (Task.cmdsT [Cmd.onceC "x" 1, Cmd.onC "x" 2, Cmd.emitC "x" []])).map
      (fun r => (callsOf r.2 1, callsOf r.2 2, callsTotal r.2)) =
      some (1, 2, 3) := by rfl

/-- C10: after `once("x", f)`, `removeListener("x", f)` with the original
listener does not unregister the once listener — the registry holds the
internal wrapper, not `f` — and a subsequent `emit("x")` still calls `f`
exactly once (and calls nothing else). -/
theorem once_removeListener_scenario :
    (step (fun _ => []) 20 ⟨[], [], 0, none⟩
        (Task.cmdsT [Cmd.onceC "x" 1, Cmd.removeC "x" 1])).map
      (fun r => getSet r.1.listeners "x") = some [LKey.wrap 0] ∧
    (step (fun _ => []) 30 ⟨[], [], 0, none⟩
        (Task.cmdsT [Cmd.onceC "x" 1, Cmd.removeC "x" 1, Cmd.emitC "x" []])).map
      (fun r => (callsOf r.2 1, callsTotal r.2)) = some (1, 1) :=
  ⟨rfl, rfl⟩

/-! ## Deferred-Task Scheduler (`makeWaitForNextTask`, platform.ts 280–313)

The Node < 11 branch keeps a private callback queue and a `spinning` flag;
`setImmediate(loop)` arms one host macrotask running `loop`.  The host is
modelled as a counter of armed `loop` tasks (it is an invariant that it
never exceeds one) plus external actions: `deferA c` is a call of the
returned closure with callback `c`, `turnA` runs one armed host task (a
no-op if none is armed).  `loop` (platform.ts 294–304) shifts the next
callback, goes idle if none, otherwise re-arms itself *first* and only then
invokes the callback — `callback()` is the final statement, so a throwing
callback (modelled by `beh c = true`) aborts nothing but itself; the
already-armed next turn survives.  The trace records each re-arm, each
callback invocation, and each throw. -/

inductive SEv where
  | rearmE
  | invokedE (c : Nat)
  | threwE (c : Nat)
deriving DecidableEq, Repr

inductive SAct where
  | deferA (c : Nat)
  | turnA
deriving DecidableEq, Repr

/-- Scheduler state: the `spinning` flag, the `callbacks` queue, and the
number of armed host `loop` tasks. -/
structure Sched where
  spinning : Bool
  callbacks : List Nat
  host : Nat
deriving DecidableEq, Repr

/-- The returned closure (platform.ts 306–312): push the callback; if not
spinning, set spinning and arm the loop. -/
def deferOp (st : Sched) (c : Nat) : Sched :=
  let st1 := { st with callbacks := st.callbacks ++ [c] }
  if st1.spinning then st1 else { st1 with spinning := true, host := st1.host + 1 }

/-- One armed `loop` task running (platform.ts 294–304): shift; if empty,
clear `spinning` and stop; else arm the next turn *before* invoking the
current callback, which runs last and may throw (`beh c = true`). -/
def loopTurn (beh : Nat → Bool) (st : Sched) : Sched × List SEv :=
  match st.callbacks with
  | [] => ({ st with spinning := false, host := st.host - 1 }, [])
  | c :: rest =>
    ({ st with callbacks := rest, host := st.host - 1 + 1 },
     SEv.rearmE :: SEv.invokedE c :: (if beh c then [SEv.threwE c] else []))

/-- Run a sequence of external actions from a state, collecting the trace. -/
def runS (beh : Nat → Bool) : List SAct → Sched → Sched × List SEv
  | [], st => (st, [])
  | SAct.deferA c :: acts, st => runS beh acts (deferOp st c)
  | SAct.turnA :: acts, st =>
    if st.host = 0 then runS beh acts st
    else
      ((runS beh acts (loopTurn beh st).1).1,
       (loopTurn beh st).2 ++ (runS beh acts (loopTurn beh st).1).2)

/-- The callbacks submitted by an action sequence, in submission order. -/
def deferred : List SAct → List Nat
  | [] => []
  | SAct.deferA c :: acts => c :: deferred acts
  | SAct.turnA :: acts => deferred acts

/-- The callbacks invoked in a trace, in invocation order. -/
def invokedS (tr : List SEv) : List Nat :=
  tr.filterMap fun e =>
    match e with
    | SEv.invokedE c => some c
    | _ => none

/-- Every callback invocation in the trace is immediately preceded by the
loop re-arming itself for the next turn. -/
def rearmPrecedes : List SEv → Bool
  | [] => true
  | SEv.rearmE :: SEv.invokedE _ :: rest => rearmPrecedes rest
  | SEv.invokedE _ :: _ => false
  | _ :: rest => rearmPrecedes rest

/-- Reachable-state invariant: exactly one armed loop task while spinning,
none while idle, and an idle scheduler has an empty queue. -/
def schedInv (st : Sched) : Prop :=
  st.host = (if st.spinning then 1 else 0) ∧ (st.spinning = false → st.callbacks = [])

@[simp] theorem invokedS_nil : invokedS [] = [] := rfl

@[simp] theorem invokedS_cons_rearm (tr : List SEv) :
    invokedS (SEv.rearmE :: tr) = invokedS tr := rfl

@[simp] theorem invokedS_cons_invoked (c : Nat) (tr : List SEv) :
    invokedS (SEv.invokedE c :: tr) = c :: invokedS tr := rfl

@[simp] theorem invokedS_cons_threw (c : Nat) (tr : List SEv) :
    invokedS (SEv.threwE c :: tr) = invokedS tr := rfl

@[simp] theorem invokedS_append (a b : List SEv) :
    invokedS (a ++ b) = invokedS a ++ invokedS b := by
  simp [invokedS, List.filterMap_append]

theorem runS_spec (beh : Nat → Bool) :
    ∀ (acts : List SAct) (st : Sched), schedInv st →
      schedInv (runS beh acts st).1 ∧
      invokedS (runS beh acts st).2 ++ (runS beh acts st).1.callbacks =
        st.callbacks ++ deferred acts ∧
      rearmPrecedes (runS beh acts st).2 = true := by
  intro acts
  induction acts with
  | nil => intro st hinv; exact ⟨hinv, by simp [runS, deferred], rfl⟩
  | cons a rest ih =>
    intro st hinv
    cases a with
    | deferA c =>
      have hcb : (deferOp st c).callbacks = st.callbacks ++ [c] := by
        simp only [deferOp]
        split <;> rfl
      have hinv' : schedInv (deferOp st c) := by
        obtain ⟨h1, h2⟩ := hinv
        simp only [deferOp]
        split
        · next hsp =>
          simp only [show st.spinning = true from hsp] at h1
          exact ⟨by simpa [show st.spinning = true from hsp] using h1,
                 by intro hf; simp [show st.spinning = true from hsp] at hf⟩
        · next hsp =>
          have hf : st.spinning = false := by simpa using hsp
          rw [hf] at h1
          simp only [if_false, Bool.false_eq_true] at h1
          exact ⟨by simp [h1], by intro hf2; simp at hf2⟩
      obtain ⟨i1, i2, i3⟩ := ih (deferOp st c) hinv'
      refine ⟨i1, ?_, i3⟩
      show invokedS (runS beh rest (deferOp st c)).2 ++
          (runS beh rest (deferOp st c)).1.callbacks =
        st.callbacks ++ deferred (SAct.deferA c :: rest)
      rw [i2, hcb, show deferred (SAct.deferA c :: rest) = c :: deferred rest from rfl]
      simp
    | turnA =>
      by_cases hh : st.host = 0
      · have hr : runS beh (SAct.turnA :: rest) st = runS beh rest st := by
          rw [runS, if_pos hh]
        obtain ⟨i1, i2, i3⟩ := ih st hinv
        rw [hr]
        exact ⟨i1, i2, i3⟩
      · have hsp : st.spinning = true := by
          obtain ⟨h1, h2⟩ := hinv
          by_contra hns
          rw [show st.spinning = false from by simpa using hns] at h1
          simp at h1
          exact hh h1
        have hh1 : st.host = 1 := by
          obtain ⟨h1, _⟩ := hinv
          rw [hsp] at h1
          simpa using h1
        cases hcb : st.callbacks with
        | nil =>
          have hl : loopTurn beh st =
              ({ spinning := false, callbacks := st.callbacks, host := st.host - 1 }, []) := by
            rw [loopTurn, hcb]
          have hrun : runS beh (SAct.turnA :: rest) st =
              ((runS beh rest { spinning := false, callbacks := st.callbacks, host := st.host - 1 }).1,
               [] ++ (runS beh rest { spinning := false, callbacks := st.callbacks, host := st.host - 1 }).2) := by
            rw [runS, if_neg hh, hl]
          have hinv' : schedInv { spinning := false, callbacks := st.callbacks, host := st.host - 1 } := by
            exact ⟨by simp [hh1], by intro _; simpa using hcb⟩
          obtain ⟨i1, i2, i3⟩ := ih _ hinv'
          have i2' : invokedS (runS beh rest { spinning := false, callbacks := st.callbacks, host := st.host - 1 }).2 ++
              (runS beh rest { spinning := false, callbacks := st.callbacks, host := st.host - 1 }).1.callbacks =
              st.callbacks ++ deferred rest := by simpa using i2
          have hrun1 : (runS beh (SAct.turnA :: rest) st).1 =
              (runS beh rest { spinning := false, callbacks := st.callbacks, host := st.host - 1 }).1 := by simp [hrun]
          have hrun2 : (runS beh (SAct.turnA :: rest) st).2 =
              (runS beh rest { spinning := false, callbacks := st.callbacks, host := st.host - 1 }).2 := by simp [hrun]
          refine ⟨by rw [hrun1]; exact i1, ?_, by rw [hrun2]; exact i3⟩
          rw [hrun2, hrun1, i2', hcb]
          rfl
        | cons c cbs =>
          have hl : loopTurn beh st =
              ({ spinning := st.spinning, callbacks := cbs, host := st.host - 1 + 1 },
               SEv.rearmE :: SEv.invokedE c ::
                 (if beh c then [SEv.threwE c] else [])) := by
            rw [loopTurn, hcb]
          have hrun : runS beh (SAct.turnA :: rest) st =
              ((runS beh rest { spinning := st.spinning, callbacks := cbs, host := st.host - 1 + 1 }).1,
               (SEv.rearmE :: SEv.invokedE c ::
                  (if beh c then [SEv.threwE c] else [])) ++
                 (runS beh rest { spinning := st.spinning, callbacks := cbs, host := st.host - 1 + 1 }).2) := by
            rw [runS, if_neg hh, hl]
          have hinv' : schedInv { spinning := st.spinning, callbacks := cbs, host := st.host - 1 + 1 } := by
            refine ⟨by simp [hsp, hh1], by intro hf; rw [hsp] at hf; simp at hf⟩
          obtain ⟨i1, i2, i3⟩ := ih _ hinv'
          have i2' : invokedS (runS beh rest { spinning := st.spinning, callbacks := cbs, host := st.host - 1 + 1 }).2 ++
              (runS beh rest { spinning := st.spinning, callbacks := cbs, host := st.host - 1 + 1 }).1.callbacks =
              cbs ++ deferred rest := by simpa using i2
          have hrun1 : (runS beh (SAct.turnA :: rest) st).1 =
              (runS beh rest { spinning := st.spinning, callbacks := cbs, host := st.host - 1 + 1 }).1 := by simp [hrun]
          have hrun2 : (runS beh (SAct.turnA :: rest) st).2 =
              (SEv.rearmE :: SEv.invokedE c ::
                 (if beh c then [SEv.threwE c] else [])) ++
                (runS beh rest { spinning := st.spinning, callbacks := cbs, host := st.host - 1 + 1 }).2 := by simp [hrun]
          refine ⟨by rw [hrun1]; exact i1, ?_, ?_⟩
          · rw [hrun2, hrun1]
            cases hbc : beh c with
            | false => simpa [deferred] using congrArg (fun l => c :: l) i2'
            | true => simpa [deferred] using congrArg (fun l => c :: l) i2'
          · rw [hrun2]
            cases hbc : beh c with
            | false =>
              show rearmPrecedes (SEv.rearmE :: SEv.invokedE c ::
                (runS beh rest { spinning := st.spinning, callbacks := cbs, host := st.host - 1 + 1 }).2) = true
              rw [show ∀ l, rearmPrecedes (SEv.rearmE :: SEv.invokedE c :: l) =
                    rearmPrecedes l from fun l => rfl]
              exact i3
            | true =>
              show rearmPrecedes (SEv.rearmE :: SEv.invokedE c :: SEv.threwE c ::
                (runS beh rest { spinning := st.spinning, callbacks := cbs, host := st.host - 1 + 1 }).2) = true
              rw [show ∀ l, rearmPrecedes (SEv.rearmE :: SEv.invokedE c :: l) =
                    rearmPrecedes l from fun l => rfl,
                  show ∀ l, rearmPrecedes (SEv.threwE c :: l) =
                    rearmPrecedes l from fun l => rfl]
              exact i3

/-- C4: for any action sequence (submissions interleaved with host turns)
and *any* assignment of which callbacks throw, the invoked callbacks are
exactly a prefix of the submitted callbacks in FIFO submission order (what
remains sits in the queue awaiting turns, and nothing remains once the
scheduler is quiescent), and every invocation in the trace happens strictly
after the loop re-armed itself for the next turn — so a throwing callback
can never starve the callbacks submitted after it. -/
theorem scheduler_fifo_fault_isolated (beh : Nat → Bool) (acts : List SAct)
    (st : Sched) (tr : List SEv)
    (h : runS beh acts ⟨false, [], 0⟩ = (st, tr)) :
    invokedS tr ++ st.callbacks = deferred acts ∧
    (st.host = 0 → st.callbacks = []) ∧
    rearmPrecedes tr = true := by
  obtain ⟨i1, i2, i3⟩ := runS_spec beh acts ⟨false, [], 0⟩
    ⟨by simp, fun _ => rfl⟩
  rw [h] at i1 i2 i3
  refine ⟨by simpa using i2, ?_, i3⟩
  intro hh
  obtain ⟨h1, h2⟩ := i1
  apply h2
  by_contra hns
  rw [show st.spinning = true from by simpa using hns] at h1
  simp only [if_true] at h1
  rw [hh] at h1
  exact absurd h1 (by simp)

/-- C4 witness: submit callbacks 1 and 2, let callback 1 throw, run three
host turns: both callbacks are invoked in order, callback 2 despite the
throw of callback 1, each invocation right after a re-arm. -/
theorem scheduler_fifo_fault_isolated_witness :
    invokedS [SEv.rearmE, SEv.invokedE 1, SEv.threwE 1, SEv.rearmE, SEv.invokedE 2] ++
        (Sched.mk false [] 0).callbacks =
      deferred [SAct.deferA 1, SAct.deferA 2, SAct.turnA, SAct.turnA, SAct.turnA] ∧
    ((Sched.mk false [] 0).host = 0 → (Sched.mk false [] 0).callbacks = []) ∧
    rearmPrecedes
      [SEv.rearmE, SEv.invokedE 1, SEv.threwE 1, SEv.rearmE, SEv.invokedE 2] = true :=
  scheduler_fifo_fault_isolated (fun c => c == 1)
    [SAct.deferA 1, SAct.deferA 2, SAct.turnA, SAct.turnA, SAct.turnA]
    ⟨false, [], 0⟩
    [SEv.rearmE, SEv.invokedE 1, SEv.threwE 1, SEv.rearmE, SEv.invokedE 2] rfl

/-! ## Message Transport (`WebSocketTransport`, platform.ts 315–360)

The constructor (327–330) creates `this._connect`, a promise fulfilled by
the socket's `open` event and rejected by its `error` event (the handshake-
failure signal; a socket that closes before opening fires `error` first).
`send` (352–355) is `await this._connect; this._ws.send(message)`.

Promise semantics give the model its transitions:
  * a `send` while the promise is unsettled registers a continuation —
    the message joins the Pending Send Queue in call order;
  * on fulfilment (`open`), the registered continuations run in
    registration order (the microtask queue is FIFO), so every pending
    message is transmitted, in call order, before the continuation of any
    `send` called after fulfilment can run — later sends append behind;
  * on rejection (`error` before `open`), every pending `await` throws the
    rejection reason (spec taxonomy: `HandshakeError`), and every later
    `send` awaits an already-rejected promise, so it rejects immediately
    at its own call, with the same `HandshakeError`, transmitting nothing.
`open`/`error` listeners only settle the promise once; a second
event is a no-op, hence the state machine below. -/

inductive ConnState where
  | connecting
  | opened
  | closedBeforeOpen
deriving DecidableEq, Repr

/-- The one failure a send can surface in this scenario: the connection
reached Closed before ever reaching Open. -/
inductive WErr where
  | handshake
deriving DecidableEq, Repr

/-- Socket events observable by the transport wiring. -/
inductive WEv where
  | sendE (m : Nat)
  | openE
  | errorE
deriving DecidableEq, Repr

/-- Transport state: `_connect`'s state, the Pending Send Queue (sends
awaiting `_connect`, in call order), the messages handed to the socket (in
transmission order), and the rejected sends with their reasons. -/
structure WST where
  conn : ConnState
  pending : List Nat
  transmitted : List Nat
  failed : List (Nat × WErr)
deriving DecidableEq, Repr

/-- Freshly constructed transport: Connecting, nothing sent. -/
def wsInit : WST := ⟨ConnState.connecting, [], [], []⟩

/-- One event: `send` queues/transmits/rejects according to `_connect`'s
state; `open` fulfils `_connect` (first settlement only), flushing the
pending sends to the socket in call order; `error` rejects `_connect`
(first settlement only), failing every pending send with `HandshakeError`. -/
def wstep (st : WST) : WEv → WST
  | WEv.sendE m =>
    match st.conn with
    | ConnState.connecting => { st with pending := st.pending ++ [m] }
    | ConnState.opened => { st with transmitted := st.transmitted ++ [m] }
    | ConnState.closedBeforeOpen =>
      { st with failed := st.failed ++ [(m, WErr.handshake)] }
  | WEv.openE =>
    match st.conn with
    | ConnState.connecting =>
      { st with conn := ConnState.opened,
                transmitted := st.transmitted ++ st.pending, pending := [] }
    | _ => st
  | WEv.errorE =>
    match st.conn with
    | ConnState.connecting =>
      { st with conn := ConnState.closedBeforeOpen,
                failed := st.failed ++ st.pending.map (fun m => (m, WErr.handshake)),
                pending := [] }
    | _ => st

/-- A transport run over an event sequence. -/
def wrun (evs : List WEv) (st : WST) : WST := evs.foldl wstep st

theorem wrun_append (a b : List WEv) (st : WST) :
    wrun (a ++ b) st = wrun b (wrun a st) := List.foldl_append wstep st a b

theorem wrun_sends_connecting (ms : List Nat) :
    ∀ st : WST, st.conn = ConnState.connecting →
      wrun (ms.map WEv.sendE) st =
        { st with pending := st.pending ++ ms } := by
  induction ms with
  | nil => intro st _; simp [wrun]
  | cons m t ih =>
    intro st hc
    have h1 : wstep st (WEv.sendE m) = { st with pending := st.pending ++ [m] } := by
      rw [wstep, hc]
    rw [show wrun ((m :: t).map WEv.sendE) st = wrun (t.map WEv.sendE)
          (wstep st (WEv.sendE m)) from rfl, h1,
        ih { st with pending := st.pending ++ [m] } (by simpa using hc)]
    simp

theorem wrun_sends_opened (ms : List Nat) :
    ∀ st : WST, st.conn = ConnState.opened →
      wrun (ms.map WEv.sendE) st =
        { st with transmitted := st.transmitted ++ ms } := by
  induction ms with
  | nil => intro st _; simp [wrun]
  | cons m t ih =>
    intro st hc
    have h1 : wstep st (WEv.sendE m) =
        { st with transmitted := st.transmitted ++ [m] } := by
      rw [wstep, hc]
    rw [show wrun ((m :: t).map WEv.sendE) st = wrun (t.map WEv.sendE)
          (wstep st (WEv.sendE m)) from rfl, h1,
        ih { st with transmitted := st.transmitted ++ [m] } (by simpa using hc)]
    simp

theorem wrun_sends_closed (ms : List Nat) :
    ∀ st : WST, st.conn = ConnState.closedBeforeOpen →
      wrun (ms.map WEv.sendE) st =
        { st with failed := st.failed ++ ms.map (fun m => (m, WErr.handshake)) } := by
  induction ms with
  | nil => intro st _; simp [wrun]
  | cons m t ih =>
    intro st hc
    have h1 : wstep st (WEv.sendE m) =
        { st with failed := st.failed ++ [(m, WErr.handshake)] } := by
      rw [wstep, hc]
    rw [show wrun ((m :: t).map WEv.sendE) st = wrun (t.map WEv.sendE)
          (wstep st (WEv.sendE m)) from rfl, h1,
        ih { st with failed := st.failed ++ [(m, WErr.handshake)] } (by simpa using hc)]
    simp

/-- C5: all sends issued while Connecting are transmitted, strictly in call
order, when the connection reaches Open, and all of them come before any
send issued after the transition to Open; nothing stays pending and
nothing fails. -/
theorem ws_send_fifo_before_open (pre post : List Nat) :
    (wrun (pre.map WEv.sendE ++ WEv.openE :: post.map WEv.sendE) wsInit).transmitted =
      pre ++ post ∧
    (wrun (pre.map WEv.sendE ++ WEv.openE :: post.map WEv.sendE) wsInit).pending = [] ∧
    (wrun (pre.map WEv.sendE ++ WEv.openE :: post.map WEv.sendE) wsInit).failed = [] := by
  have h1 : wrun (pre.map WEv.sendE) wsInit =
      { wsInit with pending := pre } := by
    rw [wrun_sends_connecting pre wsInit rfl]
    rfl
  have h2 : wrun (pre.map WEv.sendE ++ WEv.openE :: post.map WEv.sendE) wsInit =
      wrun (post.map WEv.sendE)
        (wstep { wsInit with pending := pre } WEv.openE) := by
    rw [show pre.map WEv.sendE ++ WEv.openE :: post.map WEv.sendE =
          (pre.map WEv.sendE ++ [WEv.openE]) ++ post.map WEv.sendE from by simp,
        wrun_append, wrun_append, h1]
    rfl
  have h3 : wstep { wsInit with pending := pre } WEv.openE =
      ⟨ConnState.opened, [], pre, []⟩ := by
    rw [wstep]
    simp [wsInit]
  rw [h2, h3, wrun_sends_opened post ⟨ConnState.opened, [], pre, []⟩ rfl]
  exact ⟨rfl, rfl, rfl⟩

/-- C6: if the connection transitions directly to Closed before ever
reaching Open, every send pending from the Connecting phase fails with
`HandshakeError`, nothing is ever transmitted, and — second conjunct —
a send issued on an already-closed transport is rejected immediately, by
its own step, with `HandshakeError`. -/
theorem ws_handshake_failure_rejects (pre post : List Nat) (st : WST) (m : Nat)
    (hc : st.conn = ConnState.closedBeforeOpen) :
    ((wrun (pre.map WEv.sendE ++ WEv.errorE :: post.map WEv.sendE) wsInit).failed =
        (pre ++ post).map (fun x => (x, WErr.handshake)) ∧
     (wrun (pre.map WEv.sendE ++ WEv.errorE :: post.map WEv.sendE) wsInit).transmitted =
        [] ∧
     (wrun (pre.map WEv.sendE ++ WEv.errorE :: post.map WEv.sendE) wsInit).pending = []) ∧
    wstep st (WEv.sendE m) = { st with failed := st.failed ++ [(m, WErr.handshake)] } := by
  constructor
  · have h1 : wrun (pre.map WEv.sendE) wsInit =
        { wsInit with pending := pre } := by
      rw [wrun_sends_connecting pre wsInit rfl]
      rfl
    have h2 : wrun (pre.map WEv.sendE ++ WEv.errorE :: post.map WEv.sendE) wsInit =
        wrun (post.map WEv.sendE)
          (wstep { wsInit with pending := pre } WEv.errorE) := by
      rw [show pre.map WEv.sendE ++ WEv.errorE :: post.map WEv.sendE =
            (pre.map WEv.sendE ++ [WEv.errorE]) ++ post.map WEv.sendE from by simp,
          wrun_append, wrun_append, h1]
      rfl
    have h3 : wstep { wsInit with pending := pre } WEv.errorE =
        ⟨ConnState.closedBeforeOpen, [], [],
         pre.map (fun x => (x, WErr.handshake))⟩ := by
      rw [wstep]
      simp [wsInit]
    rw [h2, h3, wrun_sends_closed post _ rfl]
    refine ⟨by simp, rfl, rfl⟩
  · rw [wstep, hc]

/-- C6 witness: one send while Connecting, handshake failure, one send
after the failure: both fail with `HandshakeError`, nothing transmitted;
and a send on a closed transport is rejected in that very step. -/
theorem ws_handshake_failure_rejects_witness :
    ((wrun ([1].map WEv.sendE ++ WEv.errorE :: [2].map WEv.sendE) wsInit).failed =
        ([1] ++ [2]).map (fun x => (x, WErr.handshake)) ∧
     (wrun ([1].map WEv.sendE ++ WEv.errorE :: [2].map WEv.sendE) wsInit).transmitted =
        [] ∧
     (wrun ([1].map WEv.sendE ++ WEv.errorE :: [2].map WEv.sendE) wsInit).pending = []) ∧
    wstep ⟨ConnState.closedBeforeOpen, [], [], []⟩ (WEv.sendE 3) =
      { (⟨ConnState.closedBeforeOpen, [], [], []⟩ : WST) with
        failed := (⟨ConnState.closedBeforeOpen, [], [], []⟩ : WST).failed ++
          [(3, WErr.handshake)] } :=
  ws_handshake_failure_rejects [1] [2] ⟨ConnState.closedBeforeOpen, [], [], []⟩ 3 rfl

end Platform
